import Mathlib

/-!
Shallow embedding of the core of the `robalobadob/wordle` repository:
the two-pass scorer (`packages/game-core/src/scoring.ts` and
`apps/go-server/internal/game/engine.go`), the cheating-host
partitioner/selector (`packages/game-core/src/cheatingHost.ts`, plus the
legacy server fallback `safeNextCheatingCandidates` in
`apps/server/src/index.ts`), the daily seed derivation
(`apps/go-server/internal/daily/daily.go`), and the session state
machines on both servers.

Words are modelled as `List Char` (a JS/Go string as a sequence of
characters); machine integers appear as `Nat`/`Int` with explicit
`% 2 ^ w` where overflow matters.
-/

namespace Wordle

/-- `Mark` mirrors `type Mark = 'hit' | 'present' | 'miss'` in
`scoring.ts` and the `MarkHit/MarkPresent/MarkMiss` enum in the Go
engine. -/
inductive Mark where
  | hit
  | present
  | miss
deriving DecidableEq, Repr

instance {ε α : Type} [DecidableEq ε] [DecidableEq α] : DecidableEq (Except ε α) := fun x y =>
  match x, y with
  | .ok a, .ok b =>
    if h : a = b then .isTrue (by rw [h]) else .isFalse (by intro hc; cases hc; exact h rfl)
  | .error a, .error b =>
    if h : a = b then .isTrue (by rw [h]) else .isFalse (by intro hc; cases hc; exact h rfl)
  | .ok _, .error _ => .isFalse (by intro hc; cases hc)
  | .error _, .ok _ => .isFalse (by intro hc; cases hc)

/-- ASCII lower-casing of one character, as `String.prototype.toLowerCase`
acts on the basic latin range used by the scorer: code points 65–90
(`A`–`Z`) map 32 up to 97–122 (`a`–`z`), everything else is fixed. -/
def tsLower (c : Char) : Char :=
  if 65 ≤ c.toNat ∧ c.toNat ≤ 90 then Char.ofNat (c.toNat + 32) else c

/-- One character of the `a`–`z` alphabet (the regex class `[a-z]`,
code points 97–122). -/
def isLowerAlpha (c : Char) : Bool :=
  97 ≤ c.toNat && c.toNat ≤ 122

/-- The test `/^[a-z]{5}$/.test(w)` of `scoring.ts` on a string already
known (or about to be checked) for length: all characters in `a`–`z`.
Together with the length-5 check this is the full shape validation. -/
def allLowerAlpha (w : List Char) : Bool :=
  w.all isLowerAlpha

/-- A well-formed lowercase 5-letter word. -/
def validWord (w : List Char) : Bool :=
  w.length == 5 && allLowerAlpha w

/-- Pass 1 of the TS/Go scorer, counts only: fold over the paired
answer/guess positions; every non-hit position contributes the answer
letter to the per-letter remainder counter (`counts[A[i]]++` in
`scoring.ts`, `counts[idx(answerRunes[i])]++` in `engine.go`). The
counter is modelled as a function `Char → Nat`. -/
def remCounts : List Char → List Char → Char → Nat
  | a :: as, g :: gs, c =>
    if g = a then remCounts as gs c
    else if c = a then remCounts as gs c + 1 else remCounts as gs c
  | _, _, _ => 0

/-- Pass 2 of the TS/Go scorer: walk the positions left to right; a hit
position stays `hit`; otherwise consume one unit of the remainder
counter for the guess letter if available (`present`), else `miss`. -/
def pass2 : List Char → List Char → (Char → Nat) → List Mark
  | a :: as, g :: gs, cnt =>
    if g = a then .hit :: pass2 as gs cnt
    else if 0 < cnt g then
      .present :: pass2 as gs (fun c => if c = g then cnt c - 1 else cnt c)
    else .miss :: pass2 as gs cnt
  | _, _, _ => []

/-- The two-pass scoring core shared by `scoring.ts` (after its
validation) and `engine.go`'s `scoreGuess`. -/
def scoreCore (answer guess : List Char) : List Mark :=
  pass2 answer guess (remCounts answer guess)

/-- `scoreGuess` of `packages/game-core/src/scoring.ts`: lower-case both
arguments, reject unless both are 5 letters of `a`–`z`, then run the
two-pass core. A thrown `Error` is modelled as `Except.error` carrying
the message. -/
def scoreGuess (answer guess : List Char) : Except String (List Mark) :=
  let A := answer.map tsLower
  let G := guess.map tsLower
  if A.length = 5 ∧ G.length = 5 then
    if allLowerAlpha A ∧ allLowerAlpha G then .ok (scoreCore A G)
    else .error "Only a-z letters allowed"
  else .error "Words must be 5 letters"

/-! ### Spec-level formulation of the two-pass algorithm

`specScore` below is written from the spec's prose (§4.1, claim C1), not
from the code: pass 1 collects the multiset of answer letters at non-hit
positions, pass 2 walks the non-hit positions left to right and credits
`present` by erasing one occurrence from that multiset. It is compared
with `scoreCore` in the refinement theorem for C1. -/

/-- Spec pass 1: the answer letters at the non-hit positions, as a
multiset represented by a list. -/
def remPool (answer guess : List Char) : List Char :=
  ((answer.zip guess).filter (fun p => p.1 ≠ p.2)).map Prod.fst

/-- Spec pass 2: left-to-right, a non-hit guess letter is `present`
exactly when it still occurs in the remainder multiset, consuming one
occurrence. -/
def specPass2 : List Char → List Char → List Char → List Mark
  | a :: as, g :: gs, pool =>
    if g = a then .hit :: specPass2 as gs pool
    else if g ∈ pool then .present :: specPass2 as gs (pool.erase g)
    else .miss :: specPass2 as gs pool
  | _, _, _ => []

/-- The scorer as the spec's words describe it. -/
def specScore (answer guess : List Char) : List Mark :=
  specPass2 answer guess (remPool answer guess)

/-! ### Metrics used to state the letter-accounting bound (C2) -/

/-- Number of positions where the guess letter is `L` and the mark is
`hit` or `present` (marks and guess walked in lockstep). -/
def creditedCount : List Mark → List Char → Char → Nat
  | m :: ms, g :: gs, L =>
    (if (m = Mark.hit ∨ m = Mark.present) ∧ g = L then 1 else 0) + creditedCount ms gs L
  | _, _, _ => 0

/-- Number of positions where answer and guess agree on the letter `L`
(the `hit` positions holding `L`). -/
def hitZipCount : List Char → List Char → Char → Nat
  | a :: as, g :: gs, L =>
    (if g = a ∧ a = L then 1 else 0) + hitZipCount as gs L
  | _, _, _ => 0

/-! ### Character-level lemmas -/

theorem toNat_ofNat_small (n : Nat) (h : n < 55296) : (Char.ofNat n).toNat = n := by
  rw [Char.ofNat, dif_pos (Or.inl h : n.isValidChar)]
  simp [Char.ofNatAux, Char.toNat, UInt32.toNat, BitVec.toNat_ofNatLt]

theorem tsLower_of_lowerAlpha {c : Char} (h : isLowerAlpha c = true) : tsLower c = c := by
  have h1 : 97 ≤ c.toNat ∧ c.toNat ≤ 122 := by
    simpa [isLowerAlpha, Bool.and_eq_true, decide_eq_true_eq] using h
  unfold tsLower
  rw [if_neg]
  omega

theorem tsLower_idem (c : Char) : tsLower (tsLower c) = tsLower c := by
  unfold tsLower
  by_cases h : 65 ≤ c.toNat ∧ c.toNat ≤ 90
  · rw [if_pos h]
    have hv : (Char.ofNat (c.toNat + 32)).toNat = c.toNat + 32 :=
      toNat_ofNat_small _ (by omega)
    rw [if_neg]
    omega
  · rw [if_neg h, if_neg h]

theorem map_tsLower_of_lowerAlpha {w : List Char} (h : allLowerAlpha w = true) :
    w.map tsLower = w := by
  induction w with
  | nil => rfl
  | cons c cs ih =>
    have hc : isLowerAlpha c = true ∧ allLowerAlpha cs = true := by
      simpa [allLowerAlpha, List.all_cons, Bool.and_eq_true] using h
    simp [List.map_cons, tsLower_of_lowerAlpha hc.1, ih hc.2]

theorem map_tsLower_idem (w : List Char) :
    (w.map tsLower).map tsLower = w.map tsLower := by
  induction w with
  | nil => rfl
  | cons c cs ih => simp [List.map_cons, tsLower_idem, ih]

/-! ### The counter of the code tracks the multiset of the spec -/

theorem remPool_cons (a g : Char) (as gs : List Char) :
    remPool (a :: as) (g :: gs) =
      if a = g then remPool as gs else a :: remPool as gs := by
  by_cases hag : a = g <;> simp [remPool, List.zip, List.filter, hag]

theorem remCounts_eq_count (answer guess : List Char) (c : Char) :
    remCounts answer guess c = (remPool answer guess).count c := by
  induction answer generalizing guess with
  | nil => cases guess <;> simp [remCounts, remPool]
  | cons a as ih =>
    cases guess with
    | nil => simp [remCounts, remPool]
    | cons g gs =>
      rw [remPool_cons]
      by_cases hga : g = a
      · rw [if_pos hga.symm]
        simp only [remCounts, if_pos hga]
        exact ih gs
      · rw [if_neg (fun h => hga h.symm)]
        have hcnt : (a :: remPool as gs).count c =
            (remPool as gs).count c + (if a = c then 1 else 0) := by
          rw [List.count_cons]
          by_cases h : a = c <;> simp [h]
        rw [hcnt]
        have hrec := ih gs
        simp only [remCounts, if_neg hga]
        by_cases hca : c = a
        · rw [if_pos hca, if_pos hca.symm, hrec]
        · rw [if_neg hca, if_neg (fun h : a = c => hca h.symm)]
          omega

theorem pass2_eq_specPass2 (answer guess : List Char) (cnt : Char → Nat) (pool : List Char)
    (h : ∀ c, cnt c = pool.count c) :
    pass2 answer guess cnt = specPass2 answer guess pool := by
  induction answer generalizing guess cnt pool with
  | nil => cases guess <;> simp [pass2, specPass2]
  | cons a as ih =>
    cases guess with
    | nil => simp [pass2, specPass2]
    | cons g gs =>
      by_cases hga : g = a
      · simp only [pass2, specPass2, if_pos hga]
        exact congrArg _ (ih gs cnt pool h)
      · have hmem : (0 < cnt g) ↔ g ∈ pool := by
          rw [h g]; exact List.count_pos_iff
        by_cases hp : g ∈ pool
        · have hpos : 0 < cnt g := hmem.mpr hp
          simp only [pass2, specPass2, if_neg hga, if_pos hpos, if_pos hp]
          refine congrArg _ (ih gs _ _ ?_)
          intro c
          rw [List.count_erase]
          by_cases hcg : c = g
          · subst hcg
            rw [if_pos rfl, beq_self_eq_true, if_pos rfl, h c]
          · have hbeq : (g == c) = false := by
              simp [beq_eq_false_iff_ne]
              exact fun hh => hcg hh.symm
            rw [if_neg hcg, hbeq, h c]
            simp
        · have hpos : ¬ 0 < cnt g := fun hc => hp (hmem.mp hc)
          simp only [pass2, specPass2, if_neg hga, if_neg hpos, if_neg hp]
          exact congrArg _ (ih gs cnt pool h)

/-- The two-pass core computes exactly what the spec's multiset
formulation describes, for all inputs. -/
theorem scoreCore_eq_specScore (answer guess : List Char) :
    scoreCore answer guess = specScore answer guess :=
  pass2_eq_specPass2 answer guess _ _ (remCounts_eq_count answer guess)

/-! ### Letter-accounting bound -/

theorem hitZip_add_remCounts_le_count (answer guess : List Char) (L : Char) :
    hitZipCount answer guess L + remCounts answer guess L ≤ answer.count L := by
  induction answer generalizing guess with
  | nil => cases guess <;> simp [hitZipCount, remCounts]
  | cons a as ih =>
    cases guess with
    | nil => simp [hitZipCount, remCounts]
    | cons g gs =>
      have hcnt : (a :: as).count L = as.count L + (if a = L then 1 else 0) := by
        rw [List.count_cons]
        by_cases h : a = L <;> simp [h]
      have hrec := ih gs
      rw [hcnt]
      simp only [hitZipCount, remCounts]
      by_cases hga : g = a
      · by_cases haL : a = L
        · have h1 : g = a ∧ a = L := ⟨hga, haL⟩
          rw [if_pos h1, if_pos hga, if_pos haL]
          omega
        · have h1 : ¬ (g = a ∧ a = L) := fun h => haL h.2
          rw [if_neg h1, if_pos hga, if_neg haL]
          omega
      · have h1 : ¬ (g = a ∧ a = L) := fun h => hga h.1
        by_cases haL : a = L
        · rw [if_neg h1, if_neg hga, if_pos haL.symm, if_pos haL]
          omega
        · have h2 : ¬ L = a := fun h => haL h.symm
          rw [if_neg h1, if_neg hga, if_neg h2, if_neg haL]
          omega

theorem pass2_credited_le (answer guess : List Char) (cnt : Char → Nat) (L : Char) :
    creditedCount (pass2 answer guess cnt) guess L ≤
      hitZipCount answer guess L + cnt L := by
  induction answer generalizing guess cnt with
  | nil => cases guess <;> simp [pass2, creditedCount, hitZipCount]
  | cons a as ih =>
    cases guess with
    | nil => simp [pass2, creditedCount, hitZipCount]
    | cons g gs =>
      by_cases hga : g = a
      · simp only [pass2, if_pos hga, creditedCount, hitZipCount]
        have hrec := ih gs cnt
        by_cases hgL : g = L
        · have haL : a = L := hga.symm.trans hgL
          simp [hga, hgL, haL] <;> omega
        · have haL : ¬ a = L := fun h => hgL (hga.trans h)
          simp [hgL, haL] <;> omega
      · have h2 : ¬ (g = a ∧ a = L) := fun h => hga h.1
        by_cases hpos : 0 < cnt g
        · simp only [pass2, if_neg hga, if_pos hpos, creditedCount, hitZipCount]
          have hrec := ih gs (fun c => if c = g then cnt c - 1 else cnt c)
          simp only at hrec
          by_cases hgL : g = L
          · subst hgL
            rw [if_pos rfl] at hrec
            simp [h2] <;> omega
          · rw [if_neg (fun h : L = g => hgL h.symm)] at hrec
            simp [hgL, h2] <;> omega
        · simp only [pass2, if_neg hga, if_neg hpos, creditedCount, hitZipCount]
          have hrec := ih gs cnt
          simp [h2] <;> omega

/-- Credited (hit or present) occurrences of any letter in the guess are
bounded by its occurrences in the answer, for all inputs. -/
theorem creditedCount_le_count (answer guess : List Char) (L : Char) :
    creditedCount (scoreCore answer guess) guess L ≤ answer.count L :=
  le_trans (pass2_credited_le answer guess _ L)
    (hitZip_add_remCounts_le_count answer guess L)

/-! ### The validated entry point on well-formed words -/

theorem validWord_parts {w : List Char} (h : validWord w = true) :
    w.length = 5 ∧ allLowerAlpha w = true := by
  simpa [validWord, Bool.and_eq_true] using h

theorem scoreGuess_of_valid (answer guess : List Char)
    (ha : validWord answer = true) (hg : validWord guess = true) :
    scoreGuess answer guess = .ok (scoreCore answer guess) := by
  obtain ⟨ha1, ha2⟩ := validWord_parts ha
  obtain ⟨hg1, hg2⟩ := validWord_parts hg
  unfold scoreGuess
  rw [map_tsLower_of_lowerAlpha ha2, map_tsLower_of_lowerAlpha hg2,
    if_pos ⟨ha1, hg1⟩, if_pos ⟨ha2, hg2⟩]

theorem pass2_length (answer guess : List Char) (cnt : Char → Nat)
    (h : answer.length = guess.length) :
    (pass2 answer guess cnt).length = answer.length := by
  induction answer generalizing guess cnt with
  | nil =>
    cases guess with
    | nil => simp [pass2]
    | cons g gs => simp at h
  | cons a as ih =>
    cases guess with
    | nil => simp at h
    | cons g gs =>
      have h5 : as.length = gs.length := by simpa using h
      by_cases hga : g = a
      · simp [pass2, hga, ih gs cnt h5]
      · by_cases hpos : 0 < cnt g <;>
          simp [pass2, hga, hpos, ih gs _ h5]

theorem scoreGuess_ok_length (answer guess : List Char) (marks : List Mark)
    (h : scoreGuess answer guess = .ok marks) : marks.length = 5 := by
  unfold scoreGuess at h
  by_cases h1 : (answer.map tsLower).length = 5 ∧ (guess.map tsLower).length = 5
  · rw [if_pos h1] at h
    by_cases h2 : allLowerAlpha (answer.map tsLower) ∧ allLowerAlpha (guess.map tsLower)
    · rw [if_pos h2] at h
      cases h
      rw [scoreCore, pass2_length _ _ _ (h1.1.trans h1.2.symm)]
      exact h1.1
    · rw [if_neg h2] at h
      cases h
  · rw [if_neg h1] at h
    cases h

/-! ### Claim theorems on the scorer -/

/-- C1: For every pair of lowercase 5-letter words, the scorer follows the
two-pass exact-then-remainder algorithm — pass 1 marks exact matches `hit`
and collects the answer letters of non-hit positions into a remainder
multiset, pass 2 walks the non-hit positions left to right and marks
`present` (consuming one occurrence) when the guess letter remains in the
multiset, else `miss`; in particular
`scoreGuess "apple" "alley" = [hit, present, miss, present, miss]`, so only
the first of the two guess Ls is credited `present`. -/
theorem C1_scorer_two_pass (answer guess : List Char)
    (ha : validWord answer = true) (hg : validWord guess = true) :
    scoreGuess answer guess = .ok (specScore answer guess) ∧
    scoreGuess "apple".toList "alley".toList =
      .ok [Mark.hit, .present, .miss, .present, .miss] :=
  ⟨(scoreGuess_of_valid answer guess ha hg).trans
      (congrArg Except.ok (scoreCore_eq_specScore answer guess)),
    by decide⟩

/-- Witness for C1 at the concrete pair from the claim. -/
theorem C1_scorer_two_pass_witness :
    validWord "apple".toList = true ∧ validWord "alley".toList = true ∧
    scoreGuess "apple".toList "alley".toList =
      .ok (specScore "apple".toList "alley".toList) :=
  ⟨by decide, by decide,
    (C1_scorer_two_pass "apple".toList "alley".toList (by decide) (by decide)).1⟩

/-- C2: For every pair of lowercase 5-letter words and every letter `L`,
the number of guess positions holding `L` that the scorer marks `hit` or
`present` never exceeds the number of occurrences of `L` in the answer. -/
theorem C2_letter_accounting (answer guess : List Char)
    (ha : validWord answer = true) (hg : validWord guess = true) (L : Char) :
    ∃ marks, scoreGuess answer guess = .ok marks ∧
      creditedCount marks guess L ≤ answer.count L :=
  ⟨scoreCore answer guess, scoreGuess_of_valid answer guess ha hg,
    creditedCount_le_count answer guess L⟩

/-- Witness for C2: the double letter of `alley` against `apple`. -/
theorem C2_letter_accounting_witness :
    validWord "apple".toList = true ∧ validWord "alley".toList = true ∧
    ∃ marks, scoreGuess "apple".toList "alley".toList = .ok marks ∧
      creditedCount marks "alley".toList 'l' ≤ "apple".toList.count 'l' :=
  ⟨by decide, by decide,
    C2_letter_accounting "apple".toList "alley".toList (by decide) (by decide) 'l'⟩

/-- C8: For every pair of input character sequences, the scorer fails with
an error when either word, after lower-casing, is not exactly 5 letters of
`a`–`z`; otherwise it scores normally, and every mark sequence it ever
returns has full length 5 (no partial scoring or truncation). -/
theorem C8_scorer_validation (answer guess : List Char) :
    (¬ (validWord (answer.map tsLower) = true ∧ validWord (guess.map tsLower) = true) →
      ∃ e, scoreGuess answer guess = .error e) ∧
    (validWord (answer.map tsLower) = true ∧ validWord (guess.map tsLower) = true →
      scoreGuess answer guess = .ok (scoreCore (answer.map tsLower) (guess.map tsLower))) ∧
    (∀ marks, scoreGuess answer guess = .ok marks → marks.length = 5) := by
  refine ⟨?_, ?_, scoreGuess_ok_length answer guess⟩
  · intro hbad
    unfold scoreGuess
    by_cases h1 : (answer.map tsLower).length = 5 ∧ (guess.map tsLower).length = 5
    · rw [if_pos h1]
      by_cases h2 : allLowerAlpha (answer.map tsLower) ∧ allLowerAlpha (guess.map tsLower)
      · exact absurd ⟨by simp [validWord, h1.1, h2.1], by simp [validWord, h1.2, h2.2]⟩ hbad
      · rw [if_neg h2]
        exact ⟨_, rfl⟩
    · rw [if_neg h1]
      exact ⟨_, rfl⟩
  · intro hok
    obtain ⟨ha1, ha2⟩ := validWord_parts hok.1
    obtain ⟨hg1, hg2⟩ := validWord_parts hok.2
    unfold scoreGuess
    rw [if_pos ⟨ha1, hg1⟩, if_pos ⟨ha2, hg2⟩]

/-- Witness for C8: a 4-letter word is rejected with an error. -/
theorem C8_scorer_validation_witness :
    ∃ e, scoreGuess "appl".toList "alley".toList = .error e :=
  (C8_scorer_validation "appl".toList "alley".toList).1 (by decide)

/-- C10: The scorer lower-cases both arguments before validating and
scoring, so it is case-insensitive at the interface, and in particular
upper-case 5-letter inputs are accepted and scored normally. -/
theorem C10_case_insensitive (answer guess : List Char) :
    scoreGuess answer guess = scoreGuess (answer.map tsLower) (guess.map tsLower) ∧
    scoreGuess "APPLE".toList "ALLEY".toList =
      .ok [Mark.hit, .present, .miss, .present, .miss] := by
  constructor
  · simp only [scoreGuess, map_tsLower_idem]
  · decide

/-! ### Cheating host (`packages/game-core/src/cheatingHost.ts`)

Buckets are modelled as an association list from a mark pattern to the
words scored to that pattern, in first-seen order (a JS `Map` preserves
insertion order, and the string key the code derives from a mark pattern
is injective on the length-5 patterns produced here, so keying by the
pattern itself is equivalent). A new word is appended at the end of its
bucket (`b.words.push(ans)`). -/

/-- One `Map` entry of the partition: the mark pattern and its words. -/
abbrev Bucket := List Mark × List (List Char)

/-- Insert one scored word into the bucket list, preserving first-seen
bucket order and appending the word to its bucket. -/
def addWord : List Bucket → List Mark → List Char → List Bucket
  | [], k, w => [(k, [w])]
  | (k', ws) :: rest, k, w =>
    if k' = k then (k', ws ++ [w]) :: rest
    else (k', ws) :: addWord rest k w

/-- The partition loop of `nextCheatingCandidates`: score every candidate
as if it were the answer and group by the mark pattern; an exception from
`scoreGuess` propagates out of the loop. -/
def buildBuckets : List (List Char) → List Char → List Bucket →
    Except String (List Bucket)
  | [], _, acc => .ok acc
  | ans :: rest, guess, acc =>
    match scoreGuess ans guess with
    | .error e => .error e
    | .ok m => buildBuckets rest guess (addWord acc m ans)

/-- The `score` summary of `cheatingHost.ts`: `(hits, presents)` of a
mark pattern. -/
def bucketScore (marks : List Mark) : Nat × Nat :=
  (marks.count .hit, marks.count .present)

/-- The sort comparator `a.s[0] - b.s[0] || a.s[1] - b.s[1]` as a strict
order: fewer hits first, then fewer presents. -/
def scoreLt (x y : Nat × Nat) : Bool :=
  x.1 < y.1 || (x.1 == y.1 && x.2 < y.2)

/-- Lexicographic order on `(hits, presents)` summaries, as a
proposition. -/
def lexLe (x y : Nat × Nat) : Prop :=
  x.1 < y.1 ∨ (x.1 = y.1 ∧ x.2 ≤ y.2)

/-- Taking the head of the stable ascending sort: keep the current best
unless the next bucket's summary is strictly smaller. -/
def chooseMinAux : Bucket → List Bucket → Bucket
  | best, [] => best
  | best, b :: rest =>
    chooseMinAux (if scoreLt (bucketScore b.1) (bucketScore best.1) then b else best) rest

/-- The `[...buckets.values()].sort(...)[0]` selection; `none` models the
`undefined` obtained from an empty bucket list. -/
def chooseMin : List Bucket → Option Bucket
  | [] => none
  | b :: rest => some (chooseMinAux b rest)

/-- `nextCheatingCandidates` of `cheatingHost.ts`. On an empty candidate
pool `chosen` is `undefined` and reading `chosen.words` throws a
`TypeError`, modelled as `Except.error`. -/
def nextCheatingCandidates (candidates : List (List Char)) (guess : List Char) :
    Except String (List (List Char) × List Mark) :=
  match buildBuckets candidates guess [] with
  | .error e => .error e
  | .ok buckets =>
    match chooseMin buckets with
    | none => .error "TypeError: cannot read properties of undefined"
    | some b => .ok (b.2, b.1)

/-! ### Legacy server fallback (`apps/server/src/index.ts`) -/

/-- The bucket-building loop of `safeNextCheatingCandidates`: invalid
candidates were filtered out before, and a candidate whose scoring still
throws is skipped (`catch { continue }`). -/
def safeBuild : List (List Char) → List Char → List Bucket → List Bucket
  | [], _, acc => acc
  | ans :: rest, guess, acc =>
    match scoreGuess ans guess with
    | .ok m => safeBuild rest guess (addWord acc m ans)
    | .error _ => safeBuild rest guess acc

/-- First bucket of maximal size (`b.words.length > best.words.length`
replaces, ties keep the earlier bucket). -/
def chooseMaxAux : Bucket → List Bucket → Bucket
  | best, [] => best
  | best, b :: rest =>
    chooseMaxAux (if best.2.length < b.2.length then b else best) rest

def chooseMax : List Bucket → Option Bucket
  | [] => none
  | b :: rest => some (chooseMaxAux b rest)

/-- `safeNextCheatingCandidates` of the legacy server: filter to valid
lowercase 5-letter candidates, bucket them skipping scoring errors, and
return the largest bucket; with no buckets at all, return an empty pool
and an all-miss pattern of the guess's length. -/
def safeNextCheatingCandidates (candidates : List (List Char)) (guess : List Char) :
    List (List Char) × List Mark :=
  let valid := candidates.filter validWord
  let buckets := safeBuild valid guess []
  match chooseMax buckets with
  | none => ([], List.replicate guess.length .miss)
  | some b => (b.2, b.1)

/-- The cheat-mode evaluation of the guess route: try
`nextCheatingCandidates`, and on a thrown error fall back to
`safeNextCheatingCandidates` (the route's `try`/`catch`). -/
def evalCheatMarks (candidates : List (List Char)) (guess : List Char) :
    List (List Char) × List Mark :=
  match nextCheatingCandidates candidates guess with
  | .ok r => r
  | .error _ => safeNextCheatingCandidates candidates guess

/-! ### Partition invariants of the bucket builder -/

theorem addWord_words_perm (acc : List Bucket) (k : List Mark) (w : List Char) :
    ((addWord acc k w).flatMap Prod.snd).Perm (w :: acc.flatMap Prod.snd) := by
  induction acc with
  | nil => simp [addWord]
  | cons b rest ih =>
    obtain ⟨k', ws⟩ := b
    by_cases hk : k' = k
    · simp only [addWord, if_pos hk, List.flatMap_cons]
      exact List.Perm.append_right _ (List.perm_append_singleton w ws)
    · simp only [addWord, if_neg hk, List.flatMap_cons]
      exact (ih.append_left ws).trans List.perm_middle

theorem addWord_keys_mem (acc : List Bucket) (k : List Mark) (w : List Char)
    (x : List Mark) (hx : x ∈ (addWord acc k w).map Prod.fst) :
    x ∈ acc.map Prod.fst ∨ x = k := by
  induction acc with
  | nil => simpa [addWord] using hx
  | cons b rest ih =>
    obtain ⟨k', ws⟩ := b
    by_cases hk : k' = k
    · simp only [addWord, if_pos hk, List.map_cons] at hx
      exact Or.inl (by simpa using hx)
    · simp only [addWord, if_neg hk, List.map_cons, List.mem_cons] at hx
      rcases hx with rfl | hx
      · exact Or.inl (List.mem_cons_self _ _)
      · rcases ih hx with h | h
        · exact Or.inl (List.mem_cons_of_mem _ h)
        · exact Or.inr h

theorem addWord_keys_nodup (acc : List Bucket) (k : List Mark) (w : List Char)
    (h : (acc.map Prod.fst).Nodup) : ((addWord acc k w).map Prod.fst).Nodup := by
  induction acc with
  | nil => simp [addWord]
  | cons b rest ih =>
    obtain ⟨k', ws⟩ := b
    rw [List.map_cons, List.nodup_cons] at h
    by_cases hk : k' = k
    · simp only [addWord, if_pos hk, List.map_cons, List.nodup_cons]
      exact ⟨h.1, h.2⟩
    · simp only [addWord, if_neg hk, List.map_cons, List.nodup_cons]
      refine ⟨fun hmem => ?_, ih h.2⟩
      rcases addWord_keys_mem rest k w k' hmem with hh | hh
      · exact h.1 hh
      · exact hk hh

theorem addWord_consistent (acc : List Bucket) (k : List Mark) (w guess : List Char)
    (hacc : ∀ b ∈ acc, ∀ x ∈ b.2, scoreGuess x guess = .ok b.1)
    (hw : scoreGuess w guess = .ok k) :
    ∀ b ∈ addWord acc k w, ∀ x ∈ b.2, scoreGuess x guess = .ok b.1 := by
  induction acc with
  | nil =>
    intro b hb x hx
    simp only [addWord, List.mem_singleton] at hb
    subst hb
    simp only [List.mem_singleton] at hx
    subst hx
    exact hw
  | cons b0 rest ih =>
    obtain ⟨k', ws⟩ := b0
    by_cases hk : k' = k
    · intro b hb x hx
      simp only [addWord, if_pos hk, List.mem_cons] at hb
      rcases hb with rfl | hb
      · simp only [List.mem_append, List.mem_singleton] at hx
        rcases hx with hx | rfl
        · exact hacc (k', ws) (List.mem_cons_self _ _) x hx
        · exact hk ▸ hw
      · exact hacc b (List.mem_cons_of_mem _ hb) x hx
    · intro b hb x hx
      simp only [addWord, if_neg hk, List.mem_cons] at hb
      rcases hb with rfl | hb
      · exact hacc (k', ws) (List.mem_cons_self _ _) x hx
      · exact ih (fun b1 hb1 => hacc b1 (List.mem_cons_of_mem _ hb1)) b hb x hx

theorem buildBuckets_spec (pool : List (List Char)) (guess : List Char) (acc : List Bucket)
    (hv : ∀ w ∈ pool, validWord w = true) (hg : validWord guess = true) :
    ∃ bs, buildBuckets pool guess acc = .ok bs ∧
      ((∀ b ∈ acc, ∀ x ∈ b.2, scoreGuess x guess = .ok b.1) →
        ∀ b ∈ bs, ∀ x ∈ b.2, scoreGuess x guess = .ok b.1) ∧
      (bs.flatMap Prod.snd).Perm (acc.flatMap Prod.snd ++ pool) ∧
      ((acc.map Prod.fst).Nodup → (bs.map Prod.fst).Nodup) := by
  induction pool generalizing acc with
  | nil =>
    exact ⟨acc, rfl, fun h => h, by simp, fun h => h⟩
  | cons ans rest ih =>
    have hans : scoreGuess ans guess = .ok (scoreCore ans guess) :=
      scoreGuess_of_valid ans guess (hv ans (List.mem_cons_self _ _)) hg
    obtain ⟨bs, hbs, hcons, hperm, hnd⟩ :=
      ih (addWord acc (scoreCore ans guess) ans)
        (fun w hw => hv w (List.mem_cons_of_mem _ hw))
    refine ⟨bs, ?_, ?_, ?_, ?_⟩
    · simp only [buildBuckets, hans]
      exact hbs
    · intro hacc
      exact hcons (addWord_consistent acc _ ans guess hacc hans)
    · refine hperm.trans ?_
      have h1 := (addWord_words_perm acc (scoreCore ans guess) ans).append_right rest
      refine h1.trans ?_
      exact List.perm_middle.symm
    · intro hacc
      exact hnd (addWord_keys_nodup acc _ ans hacc)

theorem nodup_keys_eq {l : List Bucket} (h : (l.map Prod.fst).Nodup)
    {b1 b2 : Bucket} (h1 : b1 ∈ l) (h2 : b2 ∈ l) (hk : b1.1 = b2.1) : b1 = b2 := by
  induction l with
  | nil => cases h1
  | cons b rest ih =>
    rw [List.map_cons, List.nodup_cons] at h
    rcases List.mem_cons.mp h1 with rfl | h1m
    · rcases List.mem_cons.mp h2 with rfl | h2m
      · rfl
      · exact absurd (hk ▸ List.mem_map_of_mem Prod.fst h2m) h.1
    · rcases List.mem_cons.mp h2 with rfl | h2m
      · exact absurd (hk ▸ List.mem_map_of_mem Prod.fst h1m) h.1
      · exact ih h.2 h1m h2m

/-! ### Properties of the bucket selection -/

theorem lexLe_refl (x : Nat × Nat) : lexLe x x := by
  unfold lexLe; omega

theorem lexLe_trans {x y z : Nat × Nat} (h1 : lexLe x y) (h2 : lexLe y z) : lexLe x z := by
  unfold lexLe at h1 h2 ⊢; omega

theorem scoreLt_true_lexLe {x y : Nat × Nat} (h : scoreLt x y = true) : lexLe x y := by
  unfold scoreLt at h
  simp only [Bool.or_eq_true, Bool.and_eq_true, decide_eq_true_eq, beq_iff_eq] at h
  unfold lexLe; omega

theorem scoreLt_false_lexLe {x y : Nat × Nat} (h : scoreLt x y = false) : lexLe y x := by
  unfold scoreLt at h
  simp only [Bool.or_eq_false_iff, Bool.and_eq_false_iff, decide_eq_false_iff_not,
    beq_eq_false_iff_ne, ne_eq, not_lt] at h
  unfold lexLe
  rcases h with ⟨h1, h2 | h2⟩ <;> omega

theorem chooseMinAux_mem (best : Bucket) (rest : List Bucket) :
    chooseMinAux best rest = best ∨ chooseMinAux best rest ∈ rest := by
  induction rest generalizing best with
  | nil => exact Or.inl rfl
  | cons b rest ih =>
    simp only [chooseMinAux]
    by_cases hc : scoreLt (bucketScore b.1) (bucketScore best.1) = true
    · rw [if_pos hc]
      rcases ih b with h | h
      · rw [h]
        exact Or.inr (List.mem_cons_self _ _)
      · exact Or.inr (List.mem_cons_of_mem _ h)
    · rw [if_neg hc]
      rcases ih best with h | h
      · exact Or.inl h
      · exact Or.inr (List.mem_cons_of_mem _ h)

theorem chooseMinAux_le (best : Bucket) (rest : List Bucket) :
    lexLe (bucketScore (chooseMinAux best rest).1) (bucketScore best.1) ∧
    ∀ b ∈ rest, lexLe (bucketScore (chooseMinAux best rest).1) (bucketScore b.1) := by
  induction rest generalizing best with
  | nil => exact ⟨lexLe_refl _, by simp⟩
  | cons b rest ih =>
    simp only [chooseMinAux]
    by_cases hc : scoreLt (bucketScore b.1) (bucketScore best.1) = true
    · rw [if_pos hc]
      obtain ⟨ih1, ih2⟩ := ih b
      refine ⟨lexLe_trans ih1 (scoreLt_true_lexLe hc), ?_⟩
      intro x hx
      rcases List.mem_cons.mp hx with rfl | hxm
      · exact ih1
      · exact ih2 x hxm
    · rw [if_neg hc]
      obtain ⟨ih1, ih2⟩ := ih best
      refine ⟨ih1, ?_⟩
      intro x hx
      rcases List.mem_cons.mp hx with rfl | hxm
      · exact lexLe_trans ih1 (scoreLt_false_lexLe (Bool.of_not_eq_true hc))
      · exact ih2 x hxm

/-! ### Claim theorems on the cheating host -/

/-- C3: For every pool of lowercase 5-letter words and lowercase 5-letter
guess, the buckets built by `nextCheatingCandidates` form a true
partition of the pool: each bucket's words score exactly to the bucket's
key, the words of all buckets are a permutation of the input pool (no
omission, no duplication), distinct buckets are disjoint, and every
candidate lies in some (hence exactly one) bucket. The embedding is
purely functional, so the input pool is left unchanged. -/
theorem C3_partition (pool : List (List Char)) (guess : List Char)
    (hv : ∀ w ∈ pool, validWord w = true) (hg : validWord guess = true) :
    ∃ bs, buildBuckets pool guess [] = .ok bs ∧
      (∀ b ∈ bs, ∀ x ∈ b.2, scoreGuess x guess = .ok b.1) ∧
      (bs.flatMap Prod.snd).Perm pool ∧
      (∀ b1 ∈ bs, ∀ b2 ∈ bs, b1 ≠ b2 → ∀ x, x ∈ b1.2 → x ∉ b2.2) ∧
      (∀ x ∈ pool, ∃ b ∈ bs, x ∈ b.2) := by
  obtain ⟨bs, hbs, hcons, hperm, hnd⟩ := buildBuckets_spec pool guess [] hv hg
  have hcons' : ∀ b ∈ bs, ∀ x ∈ b.2, scoreGuess x guess = .ok b.1 :=
    hcons (by simp)
  have hperm' : (bs.flatMap Prod.snd).Perm pool := by simpa using hperm
  have hnd' : (bs.map Prod.fst).Nodup := hnd (by simp)
  refine ⟨bs, hbs, hcons', hperm', ?_, ?_⟩
  · intro b1 hb1 b2 hb2 hne x hx1 hx2
    have hk1 := hcons' b1 hb1 x hx1
    have hk2 := hcons' b2 hb2 x hx2
    rw [hk1] at hk2
    injection hk2 with hkey
    exact hne (nodup_keys_eq hnd' hb1 hb2 hkey)
  · intro x hx
    have : x ∈ bs.flatMap Prod.snd := hperm'.symm.subset hx
    simpa using List.mem_flatMap.mp this

/-- Witness for C3 at the spec's concrete pool and guess. -/
theorem C3_partition_witness :
    (∀ w ∈ ["crane".toList, "slate".toList, "plant".toList,
        "clang".toList, "glare".toList, "grace".toList], validWord w = true) ∧
    ∃ bs, buildBuckets
        ["crane".toList, "slate".toList, "plant".toList,
          "clang".toList, "glare".toList, "grace".toList] "crane".toList [] = .ok bs ∧
      (∀ b ∈ bs, ∀ x ∈ b.2, scoreGuess x "crane".toList = .ok b.1) ∧
      (bs.flatMap Prod.snd).Perm
        ["crane".toList, "slate".toList, "plant".toList,
          "clang".toList, "glare".toList, "grace".toList] ∧
      (∀ b1 ∈ bs, ∀ b2 ∈ bs, b1 ≠ b2 → ∀ x, x ∈ b1.2 → x ∉ b2.2) ∧
      (∀ x ∈ ["crane".toList, "slate".toList, "plant".toList,
          "clang".toList, "glare".toList, "grace".toList], ∃ b ∈ bs, x ∈ b.2) :=
  ⟨by decide, C3_partition _ _ (by decide) (by decide)⟩

/-- C4: For every non-empty pool of lowercase 5-letter words and every
lowercase 5-letter guess, `nextCheatingCandidates` returns the words and
mark pattern of a bucket whose `(hits, presents)` summary is
lexicographically least among all induced buckets. -/
theorem C4_host_policy (pool : List (List Char)) (guess : List Char)
    (hne : pool ≠ []) (hv : ∀ w ∈ pool, validWord w = true)
    (hg : validWord guess = true) :
    ∃ bs chosen, buildBuckets pool guess [] = .ok bs ∧ chosen ∈ bs ∧
      nextCheatingCandidates pool guess = .ok (chosen.2, chosen.1) ∧
      ∀ b ∈ bs, lexLe (bucketScore chosen.1) (bucketScore b.1) := by
  obtain ⟨bs, hbs, hcons, hperm, hnd⟩ := buildBuckets_spec pool guess [] hv hg
  have hperm' : (bs.flatMap Prod.snd).Perm pool := by simpa using hperm
  obtain ⟨b0, rest, rfl⟩ : ∃ b0 rest, bs = b0 :: rest := by
    cases bs with
    | nil =>
      exact absurd (List.Perm.nil_eq hperm').symm hne
    | cons b0 rest => exact ⟨b0, rest, rfl⟩
  refine ⟨b0 :: rest, chooseMinAux b0 rest, hbs, ?_, ?_, ?_⟩
  · rcases chooseMinAux_mem b0 rest with h | h
    · rw [h]
      exact List.mem_cons_self _ _
    · exact List.mem_cons_of_mem _ h
  · simp only [nextCheatingCandidates, hbs, chooseMin]
  · intro b hb
    obtain ⟨h1, h2⟩ := chooseMinAux_le b0 rest
    rcases List.mem_cons.mp hb with rfl | hbm
    · exact h1
    · exact h2 b hbm

/-- Witness for C4 at the spec's concrete pool: the host answers the
guess `crane` with the `slate` bucket, pattern miss-miss-hit-miss-hit. -/
theorem C4_host_policy_witness :
    ∃ bs chosen,
      buildBuckets
        ["crane".toList, "slate".toList, "plant".toList,
          "clang".toList, "glare".toList, "grace".toList] "crane".toList [] = .ok bs ∧
      chosen ∈ bs ∧
      nextCheatingCandidates
        ["crane".toList, "slate".toList, "plant".toList,
          "clang".toList, "glare".toList, "grace".toList] "crane".toList =
        .ok (chosen.2, chosen.1) ∧
      ∀ b ∈ bs, lexLe (bucketScore chosen.1) (bucketScore b.1) :=
  C4_host_policy _ _ (by decide) (by decide) (by decide)

/-- C9: An empty candidate pool reaching the host selection step does not
crash the caller: `nextCheatingCandidates` throws, the route's fallback
catches, and the result is an all-miss pattern of length 5 with an empty
pool. -/
theorem C9_empty_pool_recovery (guess : List Char) (hg : validWord guess = true) :
    evalCheatMarks [] guess = ([], List.replicate 5 Mark.miss) := by
  have h5 : guess.length = 5 := (validWord_parts hg).1
  simp [evalCheatMarks, nextCheatingCandidates, buildBuckets, chooseMin,
    safeNextCheatingCandidates, safeBuild, chooseMax, h5]

/-- Witness for C9 at the guess `crane`. -/
theorem C9_empty_pool_recovery_witness :
    validWord "crane".toList = true ∧
    evalCheatMarks [] "crane".toList = ([], List.replicate 5 Mark.miss) :=
  ⟨by decide, C9_empty_pool_recovery "crane".toList (by decide)⟩

/-! ### Session state machines

`GoGame`/`goApplyGuess` embed `apps/go-server/internal/game/engine.go`
(its `Game` struct and `ApplyGuess`, with `words.IsAllowed` abstracted as
a predicate parameter). `TsGame`/`tsGuessRoute` embed the in-memory game
state and the `/api/guess` handler of the legacy server
`apps/server/src/index.ts`, starting after body parsing and session
lookup (`zod` parsing and the 404 path concern the external transport). -/

/-- Coarse session state, as the string `"playing" | "won" | "lost"`. -/
inductive GState where
  | playing
  | won
  | lost
deriving DecidableEq, Repr

/-- The Go `Game` struct fields used by `ApplyGuess`. -/
structure GoGame where
  answer : List Char
  rows : Nat
  cols : Nat
  guesses : List (List Char)
  finished : Bool
  won : Bool
deriving DecidableEq, Repr

/-- `Game.state()` of `engine.go`. -/
def goStateStr (g : GoGame) : String :=
  if g.finished then (if g.won then "won" else "lost") else "playing"

/-- `allHit` of `engine.go` / `marks.every(m => m === 'hit')`. -/
def allHit (m : List Mark) : Bool :=
  m.all (fun x => x == Mark.hit)

/-- ASCII whitespace trimmed by Go's `strings.TrimSpace` (code points
9–13 and 32). -/
def isSpaceGo (c : Char) : Bool :=
  c.toNat = 32 || (9 ≤ c.toNat && c.toNat ≤ 13)

def trimSpace (w : List Char) : List Char :=
  ((w.dropWhile isSpaceGo).reverse.dropWhile isSpaceGo).reverse

/-- `isAlpha` of `engine.go`: only `a`–`z`. -/
def goIsAlpha (w : List Char) : Bool :=
  w.all isLowerAlpha

/-- `ApplyGuess` of `engine.go`: returns the updated game together with
either the marks and new state string, or the error. -/
def goApplyGuess (g : GoGame) (isAllowed : List Char → Bool) (guessRaw : List Char) :
    GoGame × Except String (List Mark × String) :=
  if g.finished then (g, .error "game finished")
  else
    let guess := (trimSpace guessRaw).map tsLower
    if guess.length = g.cols ∧ goIsAlpha guess = true then
      if isAllowed guess then
        let marks := scoreCore g.answer guess
        let g1 : GoGame := { g with guesses := g.guesses ++ [guess] }
        let g2 : GoGame :=
          if allHit marks then { g1 with finished := true, won := true }
          else if g.rows ≤ g1.guesses.length then { g1 with finished := true }
          else g1
        (g2, .ok (marks, goStateStr g2))
      else (g, .error "not in word list")
    else (g, .error "invalid guess")

/-- Mode payload of the legacy server's in-memory game state. -/
inductive TsMode where
  | normal (answer : List Char)
  | cheat (candidates : List (List Char)) (finalized : Option (List Char))
deriving DecidableEq, Repr

/-- The legacy server's `GameState` (id omitted: the handler never
branches on it). -/
structure TsGame where
  maxRounds : Nat
  round : Nat
  state : GState
  mode : TsMode
deriving DecidableEq, Repr

/-- The `GUESSES` dictionary check: `GUESSES && !GUESSES.has(lo)`
rejects, i.e. a `null` dictionary accepts everything. -/
def tsAllowed (dict : Option (List (List Char))) (lo : List Char) : Bool :=
  match dict with
  | some d => d.contains lo
  | none => true

/-- The accepted-guess tail of the `/api/guess` handler: increment the
round, evaluate marks per mode, then apply the win and round-limit
transitions exactly as the handler orders them. The cheat-unfinalized
branch has no all-hit check in the source. -/
def tsAccept (game : TsGame) (lo : List Char) :
    TsGame × Except String (List Mark × Nat × GState) :=
  let round1 := game.round + 1
  match game.mode with
  | .normal answer =>
    match scoreGuess answer lo with
    | .error e => ({ game with round := round1 }, .error e)
    | .ok marks =>
      let st1 := if allHit marks then GState.won else game.state
      let st2 := if st1 ≠ GState.won ∧ game.maxRounds ≤ round1 then GState.lost else st1
      ({ game with round := round1, state := st2 }, .ok (marks, round1, st2))
  | .cheat cands fin =>
    match fin with
    | none =>
      let r := evalCheatMarks cands lo
      let fin2 : Option (List Char) := match r.1 with | [w] => some w | _ => none
      let st2 := if game.maxRounds ≤ round1 then GState.lost else game.state
      ({ game with round := round1, state := st2, mode := .cheat r.1 fin2 },
        .ok (r.2, round1, st2))
    | some fw =>
      match scoreGuess fw lo with
      | .error e => ({ game with round := round1 }, .error e)
      | .ok marks =>
        let st1 := if allHit marks then GState.won else game.state
        let st2 := if st1 ≠ GState.won ∧ game.maxRounds ≤ round1 then GState.lost else st1
        ({ game with round := round1, state := st2 }, .ok (marks, round1, st2))

/-- The `/api/guess` handler of the legacy server after parsing and
session lookup: finished check, shape check, dictionary check, then the
accepted-guess logic. -/
def tsGuessRoute (game : TsGame) (dict : Option (List (List Char))) (guessRaw : List Char) :
    TsGame × Except String (List Mark × Nat × GState) :=
  if game.state ≠ GState.playing then (game, .error "Game finished")
  else if validWord (guessRaw.map tsLower) = false then (game, .error "Invalid format")
  else if tsAllowed dict (guessRaw.map tsLower) = false then (game, .error "Not in word list")
  else tsAccept game (guessRaw.map tsLower)

/-- Stored answers are well formed: the committed answer (normal mode) or
the finalized word (cheat mode) is a lowercase 5-letter word, as the
server's normalized word lists guarantee. -/
def tsWellFormed (g : TsGame) : Prop :=
  match g.mode with
  | .normal answer => validWord answer = true
  | .cheat _ (some fw) => validWord fw = true
  | .cheat _ none => True

/-! ### Claim theorems on the sessions -/

/-- C5 (evidence of the divergence): in the legacy server's cheat mode
with the candidate pool already down to the single word `crane` and not
yet finalized, the accepted guess `crane` is answered with an all-hit
mark sequence while the session state remains `playing` — the
unfinalized-adversarial branch never applies the all-hit-to-Won
transition. The Go engine (standard/daily path), by contrast, does move
to won on the same all-hit marks. -/
theorem C5_cheat_allhit_stays_playing :
    tsGuessRoute
        { maxRounds := 6, round := 0, state := GState.playing,
          mode := TsMode.cheat ["crane".toList] none } none "crane".toList =
      ({ maxRounds := 6, round := 1, state := GState.playing,
          mode := TsMode.cheat ["crane".toList] (some "crane".toList) },
        .ok ([Mark.hit, .hit, .hit, .hit, .hit], 1, GState.playing)) ∧
    goApplyGuess
        { answer := "crane".toList, rows := 6, cols := 5, guesses := [],
          finished := false, won := false } (fun _ => true) "crane".toList =
      ({ answer := "crane".toList, rows := 6, cols := 5, guesses := ["crane".toList],
          finished := true, won := true },
        .ok ([Mark.hit, .hit, .hit, .hit, .hit], "won")) := by
  decide

/-- C7: Whenever a guess is rejected — the session already left playing,
the guess fails shape validation, or the guess is not in the allowed
list — the session is returned entirely unchanged (rounds, guesses,
state, answer and candidate pool included), in the Go engine and in the
legacy server handler alike. -/
theorem C7_rejection_atomicity :
    (∀ (g : GoGame) (isAllowed : List Char → Bool) (raw : List Char) (e : String),
      (goApplyGuess g isAllowed raw).2 = .error e → (goApplyGuess g isAllowed raw).1 = g) ∧
    (∀ (g : TsGame) (dict : Option (List (List Char))) (raw : List Char) (e : String),
      tsWellFormed g → (tsGuessRoute g dict raw).2 = .error e →
        (tsGuessRoute g dict raw).1 = g) := by
  constructor
  · intro g ia raw e h
    unfold goApplyGuess at h ⊢
    by_cases h1 : g.finished
    · simp [h1]
    · simp only [if_neg h1] at h ⊢
      by_cases h2 : ((trimSpace raw).map tsLower).length = g.cols ∧
          goIsAlpha ((trimSpace raw).map tsLower) = true
      · rw [if_pos h2] at h ⊢
        by_cases h3 : ia ((trimSpace raw).map tsLower) = true
        · rw [if_pos h3] at h
          simp at h
        · rw [if_neg h3]
      · rw [if_neg h2]
  · intro g dict raw e hwf h
    unfold tsGuessRoute at h ⊢
    by_cases h1 : g.state = GState.playing
    · rw [if_neg (fun hc => hc h1)] at h ⊢
      by_cases h2 : validWord (raw.map tsLower) = true
      · rw [h2] at h ⊢
        simp only [Bool.true_eq_false, if_false] at h ⊢
        by_cases h3 : tsAllowed dict (raw.map tsLower) = true
        · rw [h3] at h ⊢
          simp only [Bool.true_eq_false, if_false] at h ⊢
          exfalso
          unfold tsAccept at h
          unfold tsWellFormed at hwf
          cases hm : g.mode with
          | normal answer =>
            rw [hm] at h hwf
            dsimp only at h hwf
            rw [scoreGuess_of_valid answer _ hwf h2] at h
            simp at h
          | cheat cands fin =>
            rw [hm] at h hwf
            dsimp only at h hwf
            cases fin with
            | none => simp at h
            | some fw =>
              dsimp only at h hwf
              rw [scoreGuess_of_valid fw _ hwf h2] at h
              simp at h
        · have h3f : tsAllowed dict (raw.map tsLower) = false :=
            Bool.not_eq_true _ ▸ h3
          rw [h3f] at h ⊢
          simp
      · have h2f : validWord (raw.map tsLower) = false :=
          Bool.not_eq_true _ ▸ h2
        rw [h2f] at h ⊢
        simp
    · rw [if_pos h1]

/-- Witness for C7: a finished Go game rejects a further guess without
any change, and a finished legacy-server game does the same. -/
theorem C7_rejection_atomicity_witness :
    (goApplyGuess
        { answer := "crane".toList, rows := 6, cols := 5, guesses := ["slate".toList],
          finished := true, won := false } (fun _ => true) "crane".toList).1 =
      { answer := "crane".toList, rows := 6, cols := 5, guesses := ["slate".toList],
        finished := true, won := false } ∧
    (tsGuessRoute
        { maxRounds := 6, round := 2, state := GState.won,
          mode := TsMode.normal "crane".toList } none "slate".toList).1 =
      { maxRounds := 6, round := 2, state := GState.won,
        mode := TsMode.normal "crane".toList } :=
  ⟨C7_rejection_atomicity.1 _ _ _ "game finished" (by decide),
    C7_rejection_atomicity.2 _ _ _ "Game finished"
      (show validWord "crane".toList = true by decide) (by decide)⟩

/-! ### Daily seed derivation (`apps/go-server/internal/daily/daily.go`)

`WordIndex` computes HMAC-SHA256 of the UTC `YYYY-MM-DD` date key with
the salt as key material, takes the first 8 digest bytes as a big-endian
unsigned 64-bit integer and reduces modulo the answers-list length.
SHA-256 and the HMAC construction are implemented below from FIPS 180-4
and RFC 2104, which is what Go's `crypto/sha256` and `crypto/hmac`
provide; the implementation was checked against standard test vectors.
Bytes are `Nat` values below 256; 32-bit words are `Nat` reduced by
`u32`. A `time.Time` instant is modelled by its Unix second count; the
civil-calendar conversion is the standard days-to-date algorithm that
`Format("2006-01-02")` realizes for UTC. -/


def u32 (n : Nat) : Nat := n % 4294967296

def rotr32 (r x : Nat) : Nat := u32 ((x >>> r) ||| (x <<< (32 - r)))

def shaCh (x y z : Nat) : Nat := (x &&& y) ^^^ ((x ^^^ 4294967295) &&& z)

def shaMaj (x y z : Nat) : Nat := (x &&& y) ^^^ (x &&& z) ^^^ (y &&& z)

def bigSigma0 (x : Nat) : Nat := rotr32 2 x ^^^ rotr32 13 x ^^^ rotr32 22 x

def bigSigma1 (x : Nat) : Nat := rotr32 6 x ^^^ rotr32 11 x ^^^ rotr32 25 x

def smallSigma0 (x : Nat) : Nat := rotr32 7 x ^^^ rotr32 18 x ^^^ (x >>> 3)

def smallSigma1 (x : Nat) : Nat := rotr32 17 x ^^^ rotr32 19 x ^^^ (x >>> 10)

def shaK : List Nat :=
  [1116352408, 1899447441, 3049323471, 3921009573, 961987163, 1508970993,
   2453635748, 2870763221, 3624381080, 310598401, 607225278, 1426881987,
   1925078388, 2162078206, 2614888103, 3248222580, 3835390401, 4022224774,
   264347078, 604807628, 770255983, 1249150122, 1555081692, 1996064986,
   2554220882, 2821834349, 2952996808, 3210313671, 3336571891, 3584528711,
   113926993, 338241895, 666307205, 773529912, 1294757372, 1396182291,
   1695183700, 1986661051, 2177026350, 2456956037, 2730485921, 2820302411,
   3259730800, 3345764771, 3516065817, 3600352804, 4094571909, 275423344,
   430227734, 506948616, 659060556, 883997877, 958139571, 1322822218,
   1537002063, 1747873779, 1955562222, 2024104815, 2227730452, 2361852424,
   2428436474, 2756734187, 3204031479, 3329325298]

def shaH0 : List Nat :=
  [1779033703, 3144134277, 1013904242, 2773480762,
   1359893119, 2600822924, 528734635, 1541459225]

def bytesToWords : List Nat → List Nat
  | b0 :: b1 :: b2 :: b3 :: rest => (((b0 * 256 + b1) * 256 + b2) * 256 + b3) :: bytesToWords rest
  | _ => []

def extendW : Nat → List Nat → List Nat
  | 0, w => w
  | n + 1, w =>
    let t := w.length
    let wt := u32 (smallSigma1 (w.getD (t - 2) 0) + w.getD (t - 7) 0 +
      smallSigma0 (w.getD (t - 15) 0) + w.getD (t - 16) 0)
    extendW n (w ++ [wt])

def compress1 (kw : Nat × Nat)
    (s : Nat × Nat × Nat × Nat × Nat × Nat × Nat × Nat) :
    Nat × Nat × Nat × Nat × Nat × Nat × Nat × Nat :=
  match s with
  | (a, b, c, d, e, f, g, h) =>
    let t1 := u32 (h + bigSigma1 e + shaCh e f g + kw.1 + kw.2)
    let t2 := u32 (bigSigma0 a + shaMaj a b c)
    (u32 (t1 + t2), a, b, c, u32 (d + t1), e, f, g)

def processBlock (H : List Nat) (words16 : List Nat) : List Nat :=
  let w := extendW 48 words16
  let s0 := (H.getD 0 0, H.getD 1 0, H.getD 2 0, H.getD 3 0,
    H.getD 4 0, H.getD 5 0, H.getD 6 0, H.getD 7 0)
  match (shaK.zip w).foldl (fun s kw => compress1 kw s) s0 with
  | (a, b, c, d, e, f, g, h) =>
    [u32 (H.getD 0 0 + a), u32 (H.getD 1 0 + b), u32 (H.getD 2 0 + c), u32 (H.getD 3 0 + d),
     u32 (H.getD 4 0 + e), u32 (H.getD 5 0 + f), u32 (H.getD 6 0 + g), u32 (H.getD 7 0 + h)]

def padBytes (ms : List Nat) : List Nat :=
  let L := ms.length
  let z := (119 - L % 64) % 64
  let bl := 8 * L
  ms ++ 128 :: List.replicate z 0 ++
    [bl / 2 ^ 56 % 256, bl / 2 ^ 48 % 256, bl / 2 ^ 40 % 256, bl / 2 ^ 32 % 256,
     bl / 2 ^ 24 % 256, bl / 2 ^ 16 % 256, bl / 2 ^ 8 % 256, bl % 256]

def chunk64 : List Nat → List (List Nat)
  | [] => []
  | b :: rest => ((b :: rest).take 64) :: chunk64 ((b :: rest).drop 64)
termination_by l => l.length
decreasing_by simp [List.length_drop]; omega

def sha256 (ms : List Nat) : List Nat :=
  let final := (chunk64 (padBytes ms)).foldl
    (fun H blk => processBlock H (bytesToWords blk)) shaH0
  final.flatMap (fun w => [w / 2 ^ 24 % 256, w / 2 ^ 16 % 256, w / 2 ^ 8 % 256, w % 256])

def hmacSha256 (key msg : List Nat) : List Nat :=
  let k0 := if 64 < key.length then sha256 key else key
  let kp := k0 ++ List.replicate (64 - k0.length) 0
  sha256 ((kp.map (fun b => b ^^^ 92)) ++ sha256 ((kp.map (fun b => b ^^^ 54)) ++ msg))

def civilFromDays (z0 : Int) : Int × Nat × Nat :=
  let z := z0 + 719468
  let era := Int.fdiv z 146097
  let doe := (z - era * 146097).toNat
  let yoe := (doe - doe / 1460 + doe / 36524 - doe / 146096) / 365
  let y : Int := (yoe : Int) + era * 400
  let doy := doe - (365 * yoe + yoe / 4 - yoe / 100)
  let mp := (5 * doy + 2) / 153
  let d := doy - (153 * mp + 2) / 5 + 1
  let m := if mp < 10 then mp + 3 else mp - 9
  (if m ≤ 2 then y + 1 else y, m, d)

def natStr (n : Nat) : List Char := (Nat.repr n).toList

def padZeros (k : Nat) (s : List Char) : List Char :=
  List.replicate (k - s.length) '0' ++ s

def yearStr (y : Int) : List Char :=
  if y < 0 then '-' :: padZeros 4 (natStr (-y).toNat)
  else padZeros 4 (natStr y.toNat)

def dateKey (t : Int) : List Char :=
  match civilFromDays (Int.fdiv t 86400) with
  | (y, m, d) => yearStr y ++ '-' :: padZeros 2 (natStr m) ++ '-' :: padZeros 2 (natStr d)

def strBytes (s : List Char) : List Nat := s.map Char.toNat

def first8BE (bs : List Nat) : Nat := (bs.take 8).foldl (fun acc b => acc * 256 + b) 0

def wordIndex (t : Int) (salt : List Char) (answersLen : Int) : Int :=
  if answersLen ≤ 0 then 0
  else
    let sum := hmacSha256 (strBytes salt) (strBytes (dateKey t))
    Int.ofNat (first8BE sum % answersLen.toNat)

/-- C6: `wordIndex` first normalizes the timestamp to the UTC
`YYYY-MM-DD` date key (the index depends on the timestamp only through
that key); for a positive pool size it is the first 8 bytes of
HMAC-SHA256(salt, dateKey) as a big-endian unsigned 64-bit integer
reduced modulo the pool size, hence an integer in `[0, poolSize)`; for a
non-positive pool size it returns 0 instead of failing; and as a pure
function it returns the same index for the same (date, salt, poolSize). -/
theorem C6_daily_seed (t : Int) (salt : List Char) (p : Int) :
    (0 < p →
      wordIndex t salt p =
        Int.ofNat (first8BE (hmacSha256 (strBytes salt) (strBytes (dateKey t))) % p.toNat) ∧
      0 ≤ wordIndex t salt p ∧ wordIndex t salt p < p) ∧
    (p ≤ 0 → wordIndex t salt p = 0) ∧
    (∀ t2 : Int, dateKey t2 = dateKey t → wordIndex t2 salt p = wordIndex t salt p) := by
  refine ⟨?_, ?_, ?_⟩
  · intro hp
    have hnp : ¬ p ≤ 0 := by omega
    unfold wordIndex
    rw [if_neg hnp]
    dsimp only
    refine ⟨rfl, Int.ofNat_nonneg _, ?_⟩
    have hpt : 0 < p.toNat := by omega
    have hlt := Nat.mod_lt
      (first8BE (hmacSha256 (strBytes salt) (strBytes (dateKey t)))) hpt
    exact lt_of_lt_of_le (Int.ofNat_lt.mpr hlt)
      (le_of_eq (Int.toNat_of_nonneg (le_of_lt hp)))
  · intro hp
    unfold wordIndex
    rw [if_pos hp]
  · intro t2 h2
    unfold wordIndex
    rw [h2]

/-- Witness for C6 at the Unix time 1756000000 (2025-08-24 UTC), salt
`salt` and pool size 3. -/
theorem C6_daily_seed_witness :
    (0 : Int) < 3 ∧
    (wordIndex 1756000000 "salt".toList 3 =
        Int.ofNat (first8BE (hmacSha256 (strBytes "salt".toList)
          (strBytes (dateKey 1756000000))) % (3 : Int).toNat) ∧
      0 ≤ wordIndex 1756000000 "salt".toList 3 ∧
      wordIndex 1756000000 "salt".toList 3 < 3) :=
  ⟨by decide, (C6_daily_seed 1756000000 "salt".toList 3).1 (by decide)⟩

end Wordle

section ScratchChecks
open Wordle

example :
    scoreGuess "apple".toList "alley".toList =
      .ok [.hit, .present, .miss, .present, .miss] := by decide

example :
    scoreGuess "apple".toList "paper".toList =
      .ok [.present, .present, .hit, .present, .miss] := by decide

example :
    scoreGuess "crane".toList "crane".toList =
      .ok [.hit, .hit, .hit, .hit, .hit] := by decide

example : specScore "apple".toList "alley".toList =
    [Mark.hit, .present, .miss, .present, .miss] := by decide

example : (scoreGuess "appl".toList "alley".toList).isOk = false := by decide

example : scoreGuess "APPLE".toList "ALLEY".toList =
    scoreGuess "apple".toList "alley".toList := by decide

example :
    nextCheatingCandidates
      ["crane".toList, "slate".toList, "plant".toList,
        "clang".toList, "glare".toList, "grace".toList] "crane".toList =
    .ok (["slate".toList], [.miss, .miss, .hit, .miss, .hit]) := by decide

example : nextCheatingCandidates [] "crane".toList =
    .error "TypeError: cannot read properties of undefined" := by decide

example : safeNextCheatingCandidates [] "crane".toList =
    ([], [.miss, .miss, .miss, .miss, .miss]) := by decide

end ScratchChecks
